import Mathlib

/-!
Verification of the DocuMind chunking engine and summarization strategy
selector (`src/core/chunking_engine.py`, `src/strategies/summarization_strategies.py`).

The engine is embedded shallowly: the tokenizer (an external `tiktoken`
dependency) is abstracted as a `TokenCounter` capability record exactly as the
specification prescribes, and every chunking routine of `ChunkingEngine` is
translated function by function.  The Python `while` loop of the fixed-size
strategy is rendered with explicit fuel (returning `none` when the fuel is
exhausted while the loop guard still holds), which makes its potential
non-termination observable.
-/

/-- Token counting capability: `encode` turns text into token ids, `decode`
turns token ids back into text (`self.encoding` in the source). -/
structure TokenCounter where
  encode : String → List Nat
  decode : List Nat → String

/-- `count_tokens`: `len(self.encoding.encode(text))`. -/
def TokenCounter.count_tokens (tc : TokenCounter) (text : String) : Nat :=
  (tc.encode text).length

/-- The fields of `DocumentSection` consumed by the chunking engine
(`title`, `content`, `level`). -/
structure DocumentSection where
  title : String
  content : String
  level : Nat
  deriving DecidableEq

/-- The fields of `ProcessedDocument` consumed by the chunking engine
(`full_text` and the ordered `sections`). -/
structure ProcessedDocument where
  full_text : String
  sections : List DocumentSection
  deriving DecidableEq

/-- Values stored in a chunk's `metadata` dict: strategy tags (strings) and the
`is_complete_section` flag (bool). -/
inductive MetaVal where
  | str : String → MetaVal
  | bool : Bool → MetaVal
  deriving DecidableEq

/-- `TextChunk` dataclass. -/
structure TextChunk where
  content : String
  chunk_id : Nat
  section_title : Option String := none
  section_level : Option Nat := none
  start_position : Nat := 0
  end_position : Nat := 0
  token_count : Nat := 0
  metadata : List (String × MetaVal) := []
  deriving DecidableEq

/-- `ChunkingEngine` configuration state: `chunk_size`, `chunk_overlap` and the
token-counting capability. -/
structure ChunkingEngine where
  chunk_size : Nat
  chunk_overlap : Nat
  tc : TokenCounter

/-- `ChunkingEngine.count_tokens`. -/
def ChunkingEngine.count_tokens (e : ChunkingEngine) (text : String) : Nat :=
  e.tc.count_tokens text

/-- Python `\s` on ASCII input (whitespace characters recognised by
`str.strip` and the splitting regexes). -/
def isPySpace (c : Char) : Bool :=
  c == ' ' || c == '\t' || c == '\n' || c == '\r' || c == '\x0b' || c == '\x0c'

/-- Python `str.strip()`. -/
def pyStrip (s : String) : String :=
  String.mk (((s.data.dropWhile isPySpace).reverse.dropWhile isPySpace).reverse)

/-- Consume the remainder of a `\n\s*\n` paragraph separator after its first
newline: greedily eat `\s*\n` repetitions (the regex backtracks so that the
match ends at the last newline of the whitespace run).  Fuel-driven; one
character is consumed per step, so fuel equal to the list length suffices. -/
def eatSep : Nat → List Char → List Char
  | 0, l => l
  | fuel + 1, l =>
    match l.dropWhile (fun c => isPySpace c && c != '\n') with
    | [] => l
    | c :: r => if c = '\n' then eatSep fuel r else l

/-- Splitter core for `re.split(r'\n\s*\n', text)`: a separator starts at a
newline that is followed (possibly after non-newline whitespace) by another
newline. -/
def splitParasGo : Nat → List Char → List Char → List String
  | _, [], acc => [String.mk acc.reverse]
  | 0, l, acc => [String.mk (acc.reverse ++ l)]
  | fuel + 1, c :: rest, acc =>
    if c = '\n' &&
        ((rest.dropWhile fun d => isPySpace d && d != '\n').head? == some '\n') then
      String.mk acc.reverse :: splitParasGo fuel (eatSep fuel rest) []
    else
      splitParasGo fuel rest (c :: acc)

/-- `_split_into_paragraphs`: split on `\n\s*\n`, strip each piece, drop empty
pieces. -/
def split_into_paragraphs (text : String) : List String :=
  ((splitParasGo text.data.length text.data []).map pyStrip).filter
    (fun p => decide (p ≠ ""))

/-- Splitter core for `re.split(r'(?<=[.!?])\s+', text)`: a separator is a
maximal whitespace run immediately preceded by `.`, `!` or `?`. -/
def splitSentsGo : Nat → List Char → List Char → List String
  | _, [], acc => [String.mk acc.reverse]
  | 0, l, acc => [String.mk (acc.reverse ++ l)]
  | fuel + 1, c :: rest, acc =>
    if isPySpace c &&
        (acc.head? == some '.' || acc.head? == some '!' || acc.head? == some '?') then
      String.mk acc.reverse :: splitSentsGo fuel (rest.dropWhile isPySpace) []
    else
      splitSentsGo fuel rest (c :: acc)

/-- `_split_into_sentences`: split after `.`/`!`/`?` followed by whitespace,
strip each piece, drop empty pieces. -/
def split_into_sentences (text : String) : List String :=
  ((splitSentsGo text.data.length text.data []).map pyStrip).filter
    (fun p => decide (p ≠ ""))

/-- `_get_overlap_text`: the last `chunk_overlap` tokens of `text`, decoded
(`tokens[-self.chunk_overlap:]`; for `chunk_overlap = 0` Python's `[-0:]`
denotes the whole list). -/
def ChunkingEngine.get_overlap_text (e : ChunkingEngine) (text : String) : String :=
  let tokens := e.tc.encode text
  if tokens.length ≤ e.chunk_overlap then text
  else
    e.tc.decode
      (if e.chunk_overlap = 0 then tokens
       else tokens.drop (tokens.length - e.chunk_overlap))

/-- `_create_chunk_from_paragraphs`: join the paragraphs with a blank line and
recount the tokens of the joined content. -/
def ChunkingEngine.create_chunk_from_paragraphs (e : ChunkingEngine)
    (paragraphs : List String) (chunk_id : Nat)
    (section_title : String) (section_level : Nat) : TextChunk :=
  let content := String.intercalate "\n\n" paragraphs
  { content := content
    chunk_id := chunk_id
    section_title := some section_title
    section_level := some section_level
    token_count := e.count_tokens content
    metadata := [("strategy", MetaVal.str "paragraph_based")] }

/-- Loop body of `_split_large_paragraph`: accumulate sentences into a buffer,
flush when the running token total would exceed `chunk_size`, optionally
seeding the next buffer with overlap text taken from the flushed chunk. -/
def ChunkingEngine.splitLargeParaGo (e : ChunkingEngine) (sec : DocumentSection) :
    List String → List String → Nat → Nat → List TextChunk
  | [], current_chunk, _, chunk_id =>
    if current_chunk.isEmpty then []
    else
      let chunk_text := String.intercalate " " current_chunk
      [{ content := chunk_text
         chunk_id := chunk_id
         section_title := some sec.title
         section_level := some sec.level
         token_count := e.count_tokens chunk_text
         metadata := [("strategy", MetaVal.str "sentence_split")] }]
  | sentence :: rest, current_chunk, current_tokens, chunk_id =>
    let sent_tokens := e.count_tokens sentence
    if e.chunk_size < current_tokens + sent_tokens && !current_chunk.isEmpty then
      let chunk_text := String.intercalate " " current_chunk
      let ck : TextChunk :=
        { content := chunk_text
          chunk_id := chunk_id
          section_title := some sec.title
          section_level := some sec.level
          token_count := e.count_tokens chunk_text
          metadata := [("strategy", MetaVal.str "sentence_split")] }
      if 0 < e.chunk_overlap then
        let overlap_text := e.get_overlap_text chunk_text
        ck :: e.splitLargeParaGo sec rest [overlap_text, sentence]
          (e.count_tokens overlap_text + sent_tokens) (chunk_id + 1)
      else
        ck :: e.splitLargeParaGo sec rest [sentence] sent_tokens (chunk_id + 1)
    else
      e.splitLargeParaGo sec rest (current_chunk ++ [sentence])
        (current_tokens + sent_tokens) chunk_id

/-- `_split_large_paragraph`. -/
def ChunkingEngine.split_large_paragraph (e : ChunkingEngine) (paragraph : String)
    (start_chunk_id : Nat) (sec : DocumentSection) : List TextChunk :=
  e.splitLargeParaGo sec (split_into_sentences paragraph) [] 0 start_chunk_id

/-- Loop body of `_split_long_section`: accumulate paragraphs, divert oversized
paragraphs to `_split_large_paragraph`, flush on overflow and seed the next
buffer with the overlap tail of the previously emitted chunk (`chunks[-1]`). -/
def ChunkingEngine.splitLongGo (e : ChunkingEngine) (sec : DocumentSection) :
    List String → List TextChunk → List String → Nat → Nat → List TextChunk
  | [], chunks, current_chunk, _, chunk_id =>
    if current_chunk.isEmpty then chunks
    else
      chunks ++ [e.create_chunk_from_paragraphs current_chunk chunk_id sec.title sec.level]
  | para :: rest, chunks, current_chunk, current_tokens, chunk_id =>
    let para_tokens := e.count_tokens para
    if e.chunk_size < para_tokens then
      if current_chunk.isEmpty then
        let para_chunks := e.split_large_paragraph para chunk_id sec
        e.splitLongGo sec rest (chunks ++ para_chunks) [] 0 (chunk_id + para_chunks.length)
      else
        let chunks1 :=
          chunks ++ [e.create_chunk_from_paragraphs current_chunk chunk_id sec.title sec.level]
        let para_chunks := e.split_large_paragraph para (chunk_id + 1) sec
        e.splitLongGo sec rest (chunks1 ++ para_chunks) [] 0 (chunk_id + 1 + para_chunks.length)
    else if e.chunk_size < current_tokens + para_tokens then
      if current_chunk.isEmpty then
        if h : chunks ≠ [] ∧ 0 < e.chunk_overlap then
          let overlap_text := e.get_overlap_text (chunks.getLast h.1).content
          e.splitLongGo sec rest chunks [overlap_text, para]
            (e.count_tokens overlap_text + para_tokens) chunk_id
        else
          e.splitLongGo sec rest chunks [para] para_tokens chunk_id
      else
        let chunks1 :=
          chunks ++ [e.create_chunk_from_paragraphs current_chunk chunk_id sec.title sec.level]
        if h : chunks1 ≠ [] ∧ 0 < e.chunk_overlap then
          let overlap_text := e.get_overlap_text (chunks1.getLast h.1).content
          e.splitLongGo sec rest chunks1 [overlap_text, para]
            (e.count_tokens overlap_text + para_tokens) (chunk_id + 1)
        else
          e.splitLongGo sec rest chunks1 [para] para_tokens (chunk_id + 1)
    else
      e.splitLongGo sec rest chunks (current_chunk ++ [para])
        (current_tokens + para_tokens) chunk_id

/-- `_split_long_section`. -/
def ChunkingEngine.split_long_section (e : ChunkingEngine) (sec : DocumentSection)
    (start_chunk_id : Nat) : List TextChunk :=
  e.splitLongGo sec (split_into_paragraphs sec.content) [] [] 0 start_chunk_id

/-- Loop body of `_smart_chunk`: sections that fit the budget are preserved
verbatim, oversized sections are split; chunk ids continue across sections. -/
def ChunkingEngine.smartGo (e : ChunkingEngine) :
    List DocumentSection → Nat → List TextChunk
  | [], _ => []
  | sec :: rest, chunk_id =>
    let section_tokens := e.count_tokens sec.content
    if section_tokens ≤ e.chunk_size then
      { content := sec.content
        chunk_id := chunk_id
        section_title := some sec.title
        section_level := some sec.level
        token_count := section_tokens
        metadata := [("strategy", MetaVal.str "section_preserved"),
                     ("is_complete_section", MetaVal.bool true)] }
        :: e.smartGo rest (chunk_id + 1)
    else
      let section_chunks := e.split_long_section sec chunk_id
      section_chunks ++ e.smartGo rest (chunk_id + section_chunks.length)

/-- `_smart_chunk`. -/
def ChunkingEngine.smart_chunk (e : ChunkingEngine) (document : ProcessedDocument) :
    List TextChunk :=
  e.smartGo document.sections 0

/-- Loop body of `_sentence_chunk` (no overlap carry-over). -/
def ChunkingEngine.sentenceGo (e : ChunkingEngine) :
    List String → List String → Nat → Nat → List TextChunk
  | [], current_chunk, _, chunk_id =>
    if current_chunk.isEmpty then []
    else
      let chunk_text := String.intercalate " " current_chunk
      [{ content := chunk_text
         chunk_id := chunk_id
         token_count := e.count_tokens chunk_text
         metadata := [("strategy", MetaVal.str "sentence")] }]
  | sentence :: rest, current_chunk, current_tokens, chunk_id =>
    let sent_tokens := e.count_tokens sentence
    if e.chunk_size < current_tokens + sent_tokens && !current_chunk.isEmpty then
      let chunk_text := String.intercalate " " current_chunk
      { content := chunk_text
        chunk_id := chunk_id
        token_count := e.count_tokens chunk_text
        metadata := [("strategy", MetaVal.str "sentence")] }
        :: e.sentenceGo rest [sentence] sent_tokens (chunk_id + 1)
    else
      e.sentenceGo rest (current_chunk ++ [sentence]) (current_tokens + sent_tokens) chunk_id

/-- `_sentence_chunk`. -/
def ChunkingEngine.sentence_chunk (e : ChunkingEngine) (text : String) : List TextChunk :=
  e.sentenceGo (split_into_sentences text) [] 0 0

/-- Python list slicing `l[start:stop]` on token lists (negative indices count
from the end and are clamped). -/
def pySlice (l : List Nat) (start stop : Int) : List Nat :=
  let n : Int := l.length
  let s := if start < 0 then max (n + start) 0 else min start n
  let t := if stop < 0 then max (n + stop) 0 else min stop n
  (l.drop s.toNat).take (t - s).toNat

/-- The `while i < len(tokens)` loop of `_fixed_chunk`, with explicit fuel.
`none` means the fuel ran out with the loop guard still true, i.e. the given
number of iterations did not complete the loop.  The index advances by
`chunk_size - chunk_overlap` (over the integers, exactly as in Python). -/
def ChunkingEngine.fixedGo (e : ChunkingEngine) (tokens : List Nat) :
    Nat → Int → Nat → Option (List TextChunk)
  | 0, i, _ => if i < (tokens.length : Int) then none else some []
  | fuel + 1, i, chunk_id =>
    if i < (tokens.length : Int) then
      let chunk_tokens := pySlice tokens i (i + e.chunk_size)
      let chunk_text := e.tc.decode chunk_tokens
      let ck : TextChunk :=
        { content := chunk_text
          chunk_id := chunk_id
          token_count := chunk_tokens.length
          metadata := [("strategy", MetaVal.str "fixed")] }
      (e.fixedGo tokens fuel (i + ((e.chunk_size : Int) - (e.chunk_overlap : Int)))
          (chunk_id + 1)).map (fun cs => ck :: cs)
    else some []

/-- `_fixed_chunk` (fuel-driven rendering of the source's `while` loop). -/
def ChunkingEngine.fixed_chunk (e : ChunkingEngine) (fuel : Nat) (text : String) :
    Option (List TextChunk) :=
  e.fixedGo (e.tc.encode text) fuel 0 0

/-- `_section_chunk`: one chunk per section, ids by enumeration. -/
def ChunkingEngine.section_chunk (e : ChunkingEngine) (document : ProcessedDocument) :
    List TextChunk :=
  document.sections.enum.map fun p =>
    { content := p.2.content
      chunk_id := p.1
      section_title := some p.2.title
      section_level := some p.2.level
      token_count := e.count_tokens p.2.content
      metadata := [("strategy", MetaVal.str "section"),
                   ("is_complete_section", MetaVal.bool true)] }

/-- `chunk_document`: dispatch on the strategy name; an unknown name raises
`ValueError` (modelled as `Except.error`).  The outer `Option` is the fuel
bound on the fixed strategy's loop. -/
def ChunkingEngine.chunk_document (e : ChunkingEngine) (fuel : Nat)
    (document : ProcessedDocument) (strategy : String) :
    Option (Except String (List TextChunk)) :=
  if strategy = "smart" then some (Except.ok (e.smart_chunk document))
  else if strategy = "fixed" then (e.fixed_chunk fuel document.full_text).map Except.ok
  else if strategy = "sentence" then some (Except.ok (e.sentence_chunk document.full_text))
  else if strategy = "section" then some (Except.ok (e.section_chunk document))
  else some (Except.error ("Unknown chunking strategy: " ++ strategy))

/-- The three summarization strategy classes the selector can instantiate. -/
inductive StrategyKind where
  | stuff : StrategyKind
  | map_reduce : StrategyKind
  | refine : StrategyKind
  deriving DecidableEq

/-- An instantiated summarization strategy (`strategy_class(model_name=...)`). -/
structure StrategyInstance where
  kind : StrategyKind
  model_name : Option String
  deriving DecidableEq

/-- `StrategySelectorr.select_strategy` (the source's decision ladder, verbatim;
the `chunks` argument is accepted but never consulted). -/
def StrategySelectorr.select_strategy (chunks : List TextChunk)
    (total_tokens : Nat) (quality_preference : String) : String :=
  if total_tokens < 4000 then "stuff"
  else if quality_preference = "premium" ∧ total_tokens < 50000 then "refine"
  else if 50000 < total_tokens then "map_reduce"
  else if quality_preference = "balanced" then "map_reduce"
  else if quality_preference = "fast" then "map_reduce"
  else "map_reduce"

/-- `StrategySelectorr.get_strategy_instance`: dictionary lookup of the
strategy class; an unknown name raises `ValueError`. -/
def StrategySelectorr.get_strategy_instance (strategy_name : String)
    (model_name : Option String) : Except String StrategyInstance :=
  if strategy_name = "stuff" then Except.ok ⟨StrategyKind.stuff, model_name⟩
  else if strategy_name = "map_reduce" then Except.ok ⟨StrategyKind.map_reduce, model_name⟩
  else if strategy_name = "refine" then Except.ok ⟨StrategyKind.refine, model_name⟩
  else Except.error ("Unknown strategy: " ++ strategy_name)

/-! ### Shared concrete instances used by witnesses and counterexamples -/

/-- A character-level token counter: one token per character.  It is a lawful
`TokenCounter` (deterministic, `decode ∘ encode = id`). -/
def tcChar : TokenCounter :=
  ⟨fun s => s.data.map Char.toNat, fun ts => String.mk (ts.map Char.ofNat)⟩

/-- A lawful token counter (deterministic, `decode ∘ encode = id` on every
string) that is not stable under re-encoding decoded token windows: the string
`"ab"` encodes to the single token `2000000`, while the characters `a`, `b`
encode separately to `97`, `98`. -/
def tcMerge : TokenCounter :=
  ⟨fun s => if s = "ab" then [2000000] else s.data.map Char.toNat,
   fun ts => if ts = [2000000] then "ab" else String.mk (ts.map Char.ofNat)⟩

/-- Engine with `chunk_size = 2`, `chunk_overlap = 0` over the character
counter. -/
def engChar20 : ChunkingEngine := ⟨2, 0, tcChar⟩

/-- Engine with `chunk_size = 2`, `chunk_overlap = 2` (degenerate fixed-window
configuration) over the character counter. -/
def engChar22 : ChunkingEngine := ⟨2, 2, tcChar⟩

/-- Engine with `chunk_size = 2`, `chunk_overlap = 1` over the unstable
counter. -/
def engMerge21 : ChunkingEngine := ⟨2, 1, tcMerge⟩

/-- Total token count of a list of accumulated units (paragraphs or
sentences), as maintained by the engine's running `current_tokens` counter. -/
def sumTokens (e : ChunkingEngine) (units : List String) : Nat :=
  (units.map e.count_tokens).sum

/-- A chunk respects the token budget at the granularity of the given actual
splitter `pieces`: its content is a `sep`-join of a non-empty selection of
those pieces, and either the pieces' individual token counts sum to at most
`chunk_size`, or the chunk is a single such piece — an atomic unit of that
granularity — that by itself exceeds `chunk_size`. -/
def budgetUnits (e : ChunkingEngine) (sep : String) (pieces : List String)
    (c : TextChunk) : Prop :=
  ∃ units : List String, units ≠ [] ∧ (∀ u ∈ units, u ∈ pieces) ∧
    c.content = String.intercalate sep units ∧
    (sumTokens e units ≤ e.chunk_size ∨
      ∃ u, units = [u] ∧ e.chunk_size < e.count_tokens u)

/-! ### C3 and C10: the strategy selector -/

/-- C3: `select_strategy` is total and follows the ordered decision ladder:
below 4000 tokens `stuff`; else `refine` exactly for premium below 50000;
everything else `map_reduce`; and the six concrete evaluations from the
specification hold. -/
theorem C3_select_strategy_ladder (chunks : List TextChunk) (total_tokens : Nat)
    (quality_preference : String) :
    (total_tokens < 4000 →
      StrategySelectorr.select_strategy chunks total_tokens quality_preference = "stuff") ∧
    (4000 ≤ total_tokens → quality_preference = "premium" → total_tokens < 50000 →
      StrategySelectorr.select_strategy chunks total_tokens quality_preference = "refine") ∧
    (4000 ≤ total_tokens → (quality_preference ≠ "premium" ∨ 50000 ≤ total_tokens) →
      StrategySelectorr.select_strategy chunks total_tokens quality_preference = "map_reduce") ∧
    (StrategySelectorr.select_strategy chunks total_tokens quality_preference
        ∈ ["stuff", "map_reduce", "refine"]) ∧
    StrategySelectorr.select_strategy chunks 3999 "balanced" = "stuff" ∧
    StrategySelectorr.select_strategy chunks 4000 "premium" = "refine" ∧
    StrategySelectorr.select_strategy chunks 49999 "premium" = "refine" ∧
    StrategySelectorr.select_strategy chunks 50001 "premium" = "map_reduce" ∧
    StrategySelectorr.select_strategy chunks 10000 "balanced" = "map_reduce" ∧
    StrategySelectorr.select_strategy chunks 10000 "fast" = "map_reduce" := by
  unfold StrategySelectorr.select_strategy
  refine ⟨?_, ?_, ?_, ?_, by decide, by decide, by decide, by decide,
    by decide, by decide⟩
  · intro h; simp [h]
  · intro h1 h2 h3; split_ifs <;> simp_all <;> omega
  · intro h1 h2; split_ifs <;> simp_all <;> omega
  · split_ifs <;> simp

/-- Witness for C3 at a concrete input. -/
theorem C3_select_strategy_ladder_witness :
    StrategySelectorr.select_strategy [] 3999 "balanced" = "stuff" :=
  (C3_select_strategy_ladder [] 3999 "balanced").1 (by norm_num)

/-- C10: the selector's result never depends on the `chunks` argument, and any
unrecognised quality preference with at least 4000 tokens yields
`"map_reduce"`. -/
theorem C10_selector_ignores_chunks (c1 c2 : List TextChunk) (total_tokens : Nat)
    (quality_preference : String) :
    StrategySelectorr.select_strategy c1 total_tokens quality_preference
      = StrategySelectorr.select_strategy c2 total_tokens quality_preference ∧
    (quality_preference ∉ ["fast", "balanced", "premium"] → 4000 ≤ total_tokens →
      StrategySelectorr.select_strategy c1 total_tokens quality_preference
        = "map_reduce") := by
  constructor
  · rfl
  · intro hq ht
    simp only [List.mem_cons, List.mem_singleton, not_or] at hq
    unfold StrategySelectorr.select_strategy
    split_ifs <;> simp_all <;> omega

/-- Witness for C10 at a concrete input. -/
theorem C10_selector_ignores_chunks_witness :
    StrategySelectorr.select_strategy [] 4000 "turbo"
        = StrategySelectorr.select_strategy
            [{ content := "x", chunk_id := 0 }] 4000 "turbo" ∧
    StrategySelectorr.select_strategy [] 4000 "turbo" = "map_reduce" :=
  ⟨(C10_selector_ignores_chunks [] [{ content := "x", chunk_id := 0 }] 4000 "turbo").1,
   (C10_selector_ignores_chunks [] [] 4000 "turbo").2 (by decide) (by norm_num)⟩

/-! ### C7: unknown strategy names -/

/-- C7: an unknown chunking strategy name and an unknown selector strategy name
both fail with an error naming the unsupported value; no chunks and no
instance are produced. -/
theorem C7_unknown_strategy_errors (e : ChunkingEngine) (fuel : Nat)
    (document : ProcessedDocument) (strategy name : String) (model : Option String)
    (h1 : strategy ∉ ["smart", "fixed", "sentence", "section"])
    (h2 : name ∉ ["stuff", "map_reduce", "refine"]) :
    e.chunk_document fuel document strategy
        = some (Except.error ("Unknown chunking strategy: " ++ strategy)) ∧
    StrategySelectorr.get_strategy_instance name model
        = Except.error ("Unknown strategy: " ++ name) := by
  simp only [List.mem_cons, List.mem_singleton, not_or] at h1 h2
  constructor
  · simp [ChunkingEngine.chunk_document, h1.1, h1.2.1, h1.2.2.1, h1.2.2.2]
  · simp [StrategySelectorr.get_strategy_instance, h2.1, h2.2.1, h2.2.2]

/-- Witness for C7 at a concrete input. -/
theorem C7_unknown_strategy_errors_witness :
    engChar20.chunk_document 5 ⟨"", []⟩ "semantic"
        = some (Except.error ("Unknown chunking strategy: " ++ "semantic")) ∧
    StrategySelectorr.get_strategy_instance "tree" none
        = Except.error ("Unknown strategy: " ++ "tree") :=
  C7_unknown_strategy_errors engChar20 5 ⟨"", []⟩ "semantic" "tree" none
    (by decide) (by decide)

/-! ### C2: the fixed-window strategy and `chunk_overlap ≥ chunk_size` -/

/-- If the window step `chunk_size - chunk_overlap` is not positive, the
`while` loop of `_fixed_chunk` never exits: from a non-positive start index
over a non-empty token list, every fuel bound is exhausted. -/
theorem fixedGo_diverges_of_overlap_ge (e : ChunkingEngine) (tokens : List Nat)
    (hconf : e.chunk_size ≤ e.chunk_overlap) (htok : tokens ≠ []) :
    ∀ (fuel : Nat) (i : Int) (chunk_id : Nat), i ≤ 0 →
      e.fixedGo tokens fuel i chunk_id = none := by
  have hlen : 0 < tokens.length := List.length_pos.mpr htok
  intro fuel
  induction fuel with
  | zero =>
    intro i cid hi
    simp only [ChunkingEngine.fixedGo]
    rw [if_pos (by exact_mod_cast lt_of_le_of_lt hi (by exact_mod_cast hlen))]
  | succ fuel ih =>
    intro i cid hi
    simp only [ChunkingEngine.fixedGo]
    rw [if_pos (by exact_mod_cast lt_of_le_of_lt hi (by exact_mod_cast hlen))]
    rw [ih (i + ((e.chunk_size : Int) - (e.chunk_overlap : Int))) (cid + 1) (by omega)]
    rfl

/-- C2 (divergence form): with `chunk_overlap ≥ chunk_size` and a document
whose text encodes to at least one token, `chunk_document` with the `fixed`
strategy raises no error at all — the loop simply never terminates (every fuel
bound yields `none`), contradicting the specified `ConfigurationError`. -/
theorem C2_fixed_never_fails_fast (e : ChunkingEngine) (document : ProcessedDocument)
    (hconf : e.chunk_size ≤ e.chunk_overlap)
    (htok : e.tc.encode document.full_text ≠ []) (fuel : Nat) :
    e.chunk_document fuel document "fixed" = none := by
  have h := fixedGo_diverges_of_overlap_ge e (e.tc.encode document.full_text)
    hconf htok fuel 0 0 le_rfl
  simp [ChunkingEngine.chunk_document, ChunkingEngine.fixed_chunk, h]

/-- Witness for C2 at a concrete input: size 2, overlap 2, one-character
document. -/
theorem C2_fixed_never_fails_fast_witness :
    engChar22.chunk_document 50 ⟨"a", []⟩ "fixed" = none :=
  C2_fixed_never_fails_fast engChar22 ⟨"a", []⟩ (by decide) (by decide) 50

/-! ### C8: empty documents -/

/-- C8: an empty document (`full_text = ""`, `sections = []`) yields the empty
chunk sequence for each of the four strategies, provided the token counter
encodes the empty string to no tokens. -/
theorem C8_empty_document (e : ChunkingEngine) (fuel : Nat) (strategy : String)
    (hs : strategy ∈ ["smart", "fixed", "sentence", "section"])
    (henc : e.tc.encode "" = []) :
    e.chunk_document fuel ⟨"", []⟩ strategy = some (Except.ok []) := by
  simp only [List.mem_cons, List.not_mem_nil, or_false] at hs
  rcases hs with h | h | h | h <;> subst h
  · rfl
  · simp only [ChunkingEngine.chunk_document, ChunkingEngine.fixed_chunk, henc]
    cases fuel <;> simp [ChunkingEngine.fixedGo]
  · rfl
  · rfl

/-- Witness for C8 at a concrete input. -/
theorem C8_empty_document_witness :
    engChar20.chunk_document 3 ⟨"", []⟩ "fixed" = some (Except.ok []) :=
  C8_empty_document engChar20 3 "fixed" (by decide) (by decide)

/-! ### Chunk-id bookkeeping lemmas -/

/-- The sentence-accumulation loop of `_split_large_paragraph` numbers its
output consecutively from the starting id. -/
theorem splitLargeParaGo_ids (e : ChunkingEngine) (sec : DocumentSection) :
    ∀ (sents cur : List String) (tok cid : Nat),
      (e.splitLargeParaGo sec sents cur tok cid).map TextChunk.chunk_id
        = List.range' cid (e.splitLargeParaGo sec sents cur tok cid).length := by
  intro sents
  induction sents with
  | nil =>
    intro cur tok cid
    by_cases h : cur.isEmpty <;>
      simp [ChunkingEngine.splitLargeParaGo, h, List.range'_succ]
  | cons s rest ih =>
    intro cur tok cid
    simp only [ChunkingEngine.splitLargeParaGo]
    split_ifs with h1 h2
    · simp [ih, List.range'_succ]
    · simp [ih, List.range'_succ]
    · exact ih _ _ _

/-- `_split_large_paragraph` numbers its output consecutively from the
starting id. -/
theorem split_large_paragraph_ids (e : ChunkingEngine) (paragraph : String)
    (start_chunk_id : Nat) (sec : DocumentSection) :
    (e.split_large_paragraph paragraph start_chunk_id sec).map TextChunk.chunk_id
      = List.range' start_chunk_id
          (e.split_large_paragraph paragraph start_chunk_id sec).length :=
  splitLargeParaGo_ids e sec _ _ _ _

/-- Projection of `_create_chunk_from_paragraphs`: the assigned id. -/
@[simp] theorem create_chunk_from_paragraphs_chunk_id (e : ChunkingEngine)
    (paragraphs : List String) (chunk_id : Nat) (t : String) (lv : Nat) :
    (e.create_chunk_from_paragraphs paragraphs chunk_id t lv).chunk_id = chunk_id :=
  rfl

/-- Projection of `_create_chunk_from_paragraphs`: the content is the
blank-line join of the paragraphs. -/
@[simp] theorem create_chunk_from_paragraphs_content (e : ChunkingEngine)
    (paragraphs : List String) (chunk_id : Nat) (t : String) (lv : Nat) :
    (e.create_chunk_from_paragraphs paragraphs chunk_id t lv).content
      = String.intercalate "\n\n" paragraphs :=
  rfl

/-- Projection of `_create_chunk_from_paragraphs`: the recorded token count is
recomputed from the joined content. -/
@[simp] theorem create_chunk_from_paragraphs_token_count (e : ChunkingEngine)
    (paragraphs : List String) (chunk_id : Nat) (t : String) (lv : Nat) :
    (e.create_chunk_from_paragraphs paragraphs chunk_id t lv).token_count
      = e.count_tokens (String.intercalate "\n\n" paragraphs) :=
  rfl

/-- Concatenating adjacent unit-step ranges. -/
theorem range1_append (a m n : Nat) :
    List.range' a m ++ List.range' (a + m) n = List.range' a (m + n) := by
  simpa [Nat.add_comm] using List.range'_append_1 a m n

/-- Appending the next id to a unit-step range. -/
theorem range1_concat (a n : Nat) :
    List.range' a n ++ [a + n] = List.range' a (n + 1) := by
  simpa using range1_append a n 1

/-- The paragraph-accumulation loop of `_split_long_section` extends an
accumulator that is already consecutively numbered, keeping the numbering
consecutive. -/
theorem splitLongGo_ids (e : ChunkingEngine) (sec : DocumentSection) :
    ∀ (paras : List String) (chunks : List TextChunk) (cur : List String)
      (tok cid : Nat) (a : Nat),
      chunks.map TextChunk.chunk_id = List.range' a chunks.length →
      cid = a + chunks.length →
      (e.splitLongGo sec paras chunks cur tok cid).map TextChunk.chunk_id
        = List.range' a (e.splitLongGo sec paras chunks cur tok cid).length := by
  intro paras
  induction paras with
  | nil =>
    intro chunks cur tok cid a hids hcid
    subst hcid
    simp only [ChunkingEngine.splitLongGo]
    by_cases h : cur.isEmpty
    · simpa [h] using hids
    · rw [if_neg h, List.map_append, hids]
      simp only [List.map_cons, List.map_nil, create_chunk_from_paragraphs_chunk_id,
        List.length_append, List.length_cons, List.length_nil]
      exact range1_concat a chunks.length
  | cons p rest ih =>
    intro chunks cur tok cid a hids hcid
    subst hcid
    simp only [ChunkingEngine.splitLongGo]
    split_ifs with h1 h2 h3 h4 h5
    · -- oversized paragraph, empty buffer
      refine ih _ _ _ _ _ ?_ (by simp [Nat.add_assoc])
      rw [List.map_append, hids, split_large_paragraph_ids, List.length_append]
      exact range1_append a chunks.length _
    · -- oversized paragraph, flush buffer first
      refine ih _ _ _ _ _ ?_
        (by simp only [List.length_append, List.length_cons, List.length_nil]; omega)
      rw [List.map_append, List.map_append, hids, split_large_paragraph_ids]
      simp only [List.map_cons, List.map_nil, create_chunk_from_paragraphs_chunk_id,
        List.length_append, List.length_cons, List.length_nil]
      rw [range1_concat]
      have := range1_append a (chunks.length + 1)
        (e.split_large_paragraph p (a + chunks.length + 1) sec).length
      rw [show a + (chunks.length + 1)
            = a + chunks.length + 1 by omega] at this
      rw [this]
    · -- overflow, empty buffer, overlap seeding
      exact ih _ _ _ _ _ hids rfl
    · -- overflow, empty buffer, no overlap
      exact ih _ _ _ _ _ hids rfl
    · -- overflow, flush, overlap seeding
      refine ih _ _ _ _ _ ?_
        (by simp only [List.length_append, List.length_cons, List.length_nil]; omega)
      rw [List.map_append, hids]
      simp only [List.map_cons, List.map_nil, create_chunk_from_paragraphs_chunk_id,
        List.length_append, List.length_cons, List.length_nil]
      exact range1_concat a chunks.length
    · -- overflow, flush, no overlap
      refine ih _ _ _ _ _ ?_
        (by simp only [List.length_append, List.length_cons, List.length_nil]; omega)
      rw [List.map_append, hids]
      simp only [List.map_cons, List.map_nil, create_chunk_from_paragraphs_chunk_id,
        List.length_append, List.length_cons, List.length_nil]
      exact range1_concat a chunks.length
    · -- plain accumulation
      exact ih _ _ _ _ _ hids rfl

/-- `_split_long_section` numbers its output consecutively from the starting
id. -/
theorem split_long_section_ids (e : ChunkingEngine) (sec : DocumentSection)
    (start_chunk_id : Nat) :
    (e.split_long_section sec start_chunk_id).map TextChunk.chunk_id
      = List.range' start_chunk_id (e.split_long_section sec start_chunk_id).length :=
  splitLongGo_ids e sec _ [] [] 0 start_chunk_id start_chunk_id (by simp) (by simp)

/-- The sentence-strategy loop numbers its output consecutively from the
starting id. -/
theorem sentenceGo_ids (e : ChunkingEngine) :
    ∀ (sents cur : List String) (tok cid : Nat),
      (e.sentenceGo sents cur tok cid).map TextChunk.chunk_id
        = List.range' cid (e.sentenceGo sents cur tok cid).length := by
  intro sents
  induction sents with
  | nil =>
    intro cur tok cid
    by_cases h : cur.isEmpty <;> simp [ChunkingEngine.sentenceGo, h, List.range'_succ]
  | cons s rest ih =>
    intro cur tok cid
    simp only [ChunkingEngine.sentenceGo]
    split_ifs with h1
    · simp [ih, List.range'_succ]
    · exact ih _ _ _

/-- The smart-strategy loop numbers its output consecutively from the starting
id. -/
theorem smartGo_ids (e : ChunkingEngine) :
    ∀ (sections : List DocumentSection) (cid : Nat),
      (e.smartGo sections cid).map TextChunk.chunk_id
        = List.range' cid (e.smartGo sections cid).length := by
  intro sections
  induction sections with
  | nil => intro cid; simp [ChunkingEngine.smartGo]
  | cons sec rest ih =>
    intro cid
    simp only [ChunkingEngine.smartGo]
    split_ifs with h
    · simp [ih, List.range'_succ]
    · rw [List.map_append, ih, split_long_section_ids, List.length_append]
      exact range1_append cid _ _

/-- When the fixed-window loop completes within its fuel, its output is
numbered consecutively from the starting id. -/
theorem fixedGo_ids (e : ChunkingEngine) (tokens : List Nat) :
    ∀ (fuel : Nat) (i : Int) (cid : Nat) (chunks : List TextChunk),
      e.fixedGo tokens fuel i cid = some chunks →
      chunks.map TextChunk.chunk_id = List.range' cid chunks.length := by
  intro fuel
  induction fuel with
  | zero =>
    intro i cid chunks h
    simp only [ChunkingEngine.fixedGo] at h
    split_ifs at h
    simp only [Option.some.injEq] at h
    subst h
    simp
  | succ fuel ih =>
    intro i cid chunks h
    simp only [ChunkingEngine.fixedGo] at h
    split_ifs at h
    · rcases hrec : e.fixedGo tokens fuel
          (i + ((e.chunk_size : Int) - (e.chunk_overlap : Int))) (cid + 1) with _ | cs
      · rw [hrec] at h; exact absurd h (by simp)
      · rw [hrec] at h
        simp only [Option.map_some', Option.some.injEq] at h
        subst h
        simp [ih _ _ _ hrec, List.range'_succ]
    · simp only [Option.some.injEq] at h
      subst h
      simp

/-- The section strategy numbers chunks by the section's ordinal index. -/
theorem section_chunk_ids (e : ChunkingEngine) (document : ProcessedDocument) :
    (e.section_chunk document).map TextChunk.chunk_id
      = List.range (e.section_chunk document).length := by
  simp only [ChunkingEngine.section_chunk, List.map_map, List.length_map,
    List.enum_length]
  have : (TextChunk.chunk_id ∘ fun p : Nat × DocumentSection =>
      ({ content := p.2.content
         chunk_id := p.1
         section_title := some p.2.title
         section_level := some p.2.level
         token_count := e.count_tokens p.2.content
         metadata := [("strategy", MetaVal.str "section"),
                      ("is_complete_section", MetaVal.bool true)] } : TextChunk))
      = Prod.fst := rfl
  rw [this, List.enum_map_fst]

/-- C5: for every document, strategy and fuel bound, when `chunk_document`
returns a chunk list its `chunk_id`s form the contiguous strictly increasing
sequence 0, 1, 2, … (the chunk at output position `i` has id `i`). -/
theorem C5_chunk_ids_dense (e : ChunkingEngine) (fuel : Nat)
    (document : ProcessedDocument) (strategy : String) (chunks : List TextChunk)
    (hs : strategy ∈ ["smart", "fixed", "sentence", "section"])
    (hok : e.chunk_document fuel document strategy = some (Except.ok chunks)) :
    chunks.map TextChunk.chunk_id = List.range chunks.length := by
  simp only [List.mem_cons, List.not_mem_nil, or_false] at hs
  rcases hs with h | h | h | h <;> subst h
  · obtain rfl : e.smart_chunk document = chunks := by
      simpa [ChunkingEngine.chunk_document] using hok
    rw [List.range_eq_range']
    exact smartGo_ids e document.sections 0
  · rcases hfix : e.fixed_chunk fuel document.full_text with _ | cs
    · simp [ChunkingEngine.chunk_document, hfix] at hok
    · obtain rfl : cs = chunks := by
        simpa [ChunkingEngine.chunk_document, hfix] using hok
      rw [List.range_eq_range']
      exact fixedGo_ids e _ fuel 0 0 cs hfix
  · obtain rfl : e.sentence_chunk document.full_text = chunks := by
      simpa [ChunkingEngine.chunk_document] using hok
    rw [List.range_eq_range']
    exact sentenceGo_ids e _ [] 0 0
  · obtain rfl : e.section_chunk document = chunks := by
      simpa [ChunkingEngine.chunk_document] using hok
    exact section_chunk_ids e document

/-- Witness for C5 at a concrete input (two-section document, smart
strategy). -/
theorem C5_chunk_ids_dense_witness :
    ([{ content := "ab", chunk_id := 0, section_title := some "A",
        section_level := some 1, token_count := 2,
        metadata := [("strategy", MetaVal.str "section_preserved"),
                     ("is_complete_section", MetaVal.bool true)] },
      { content := "c", chunk_id := 1, section_title := some "B",
        section_level := some 2, token_count := 1,
        metadata := [("strategy", MetaVal.str "section_preserved"),
                     ("is_complete_section", MetaVal.bool true)] }] :
      List TextChunk).map TextChunk.chunk_id = List.range 2 :=
  C5_chunk_ids_dense engChar20 3 ⟨"", [⟨"A", "ab", 1⟩, ⟨"B", "c", 2⟩]⟩ "smart" _
    (by decide) (by rfl)

/-- The smart-strategy loop distributes over appends of section lists, the
second part continuing from the next id after the first part. -/
theorem smartGo_append (e : ChunkingEngine) :
    ∀ (l1 l2 : List DocumentSection) (cid : Nat),
      e.smartGo (l1 ++ l2) cid
        = e.smartGo l1 cid ++ e.smartGo l2 (cid + (e.smartGo l1 cid).length) := by
  intro l1
  induction l1 with
  | nil => intro l2 cid; simp [ChunkingEngine.smartGo]
  | cons sec rest ih =>
    intro l2 cid
    simp only [List.cons_append, ChunkingEngine.smartGo, List.append_eq]
    split_ifs with h
    · rw [ih]
      simp only [List.cons_append, List.length_cons]
      rw [show cid + 1 + (e.smartGo rest (cid + 1)).length
            = cid + ((e.smartGo rest (cid + 1)).length + 1) from by omega]
    · rw [ih]
      simp only [List.append_assoc, List.length_append]
      rw [show cid + (e.split_long_section sec cid).length
              + (e.smartGo rest (cid + (e.split_long_section sec cid).length)).length
            = cid + ((e.split_long_section sec cid).length
              + (e.smartGo rest (cid + (e.split_long_section sec cid).length)).length)
            from by omega]

/-- C6: under the smart strategy, a section whose content fits the token
budget contributes exactly one chunk, verbatim, carrying the section's title
and level, tagged `section_preserved` with `is_complete_section = true`, at
the position right after the chunks of the preceding sections. -/
theorem C6_small_section_preserved (e : ChunkingEngine) (full_text : String)
    (pre post : List DocumentSection) (sec : DocumentSection)
    (h : e.count_tokens sec.content ≤ e.chunk_size) :
    e.smart_chunk ⟨full_text, pre ++ sec :: post⟩
      = e.smartGo pre 0
        ++ { content := sec.content
             chunk_id := (e.smartGo pre 0).length
             section_title := some sec.title
             section_level := some sec.level
             token_count := e.count_tokens sec.content
             metadata := [("strategy", MetaVal.str "section_preserved"),
                          ("is_complete_section", MetaVal.bool true)] }
          :: e.smartGo post ((e.smartGo pre 0).length + 1) := by
  unfold ChunkingEngine.smart_chunk
  rw [smartGo_append e pre (sec :: post) 0]
  simp only [Nat.zero_add, ChunkingEngine.smartGo, h, if_true]

/-- Witness for C6 at a concrete input: the second of two small sections. -/
theorem C6_small_section_preserved_witness :
    engChar20.smart_chunk ⟨"t", [⟨"A", "x", 1⟩] ++ ⟨"B", "yz", 2⟩ :: []⟩
      = engChar20.smartGo [⟨"A", "x", 1⟩] 0
        ++ { content := "yz"
             chunk_id := (engChar20.smartGo [⟨"A", "x", 1⟩] 0).length
             section_title := some "B"
             section_level := some 2
             token_count := engChar20.count_tokens "yz"
             metadata := [("strategy", MetaVal.str "section_preserved"),
                          ("is_complete_section", MetaVal.bool true)] }
          :: engChar20.smartGo []
              ((engChar20.smartGo [⟨"A", "x", 1⟩] 0).length + 1) :=
  C6_small_section_preserved engChar20 "t" [⟨"A", "x", 1⟩] [] ⟨"B", "yz", 2⟩
    (by decide)

/-! ### Token-count consistency -/

/-- Every chunk emitted by the sentence-splitting loop of
`_split_large_paragraph` records the recomputed token count of its content. -/
theorem splitLargeParaGo_token_count (e : ChunkingEngine) (sec : DocumentSection) :
    ∀ (sents cur : List String) (tok cid : Nat) (c : TextChunk),
      c ∈ e.splitLargeParaGo sec sents cur tok cid →
      c.token_count = e.count_tokens c.content := by
  intro sents
  induction sents with
  | nil =>
    intro cur tok cid c hc
    by_cases h : cur.isEmpty
    · simp [ChunkingEngine.splitLargeParaGo, h] at hc
    · simp [ChunkingEngine.splitLargeParaGo, h] at hc
      subst hc; rfl
  | cons s rest ih =>
    intro cur tok cid c hc
    simp only [ChunkingEngine.splitLargeParaGo] at hc
    split_ifs at hc with h1 h2
    · rcases List.mem_cons.mp hc with rfl | hc'
      · rfl
      · exact ih _ _ _ _ hc'
    · rcases List.mem_cons.mp hc with rfl | hc'
      · rfl
      · exact ih _ _ _ _ hc'
    · exact ih _ _ _ _ hc

/-- Every chunk added by the paragraph loop of `_split_long_section` records
the recomputed token count of its content (given that the accumulator already
does). -/
theorem splitLongGo_token_count (e : ChunkingEngine) (sec : DocumentSection) :
    ∀ (paras : List String) (chunks : List TextChunk) (cur : List String)
      (tok cid : Nat),
      (∀ c ∈ chunks, c.token_count = e.count_tokens c.content) →
      ∀ c ∈ e.splitLongGo sec paras chunks cur tok cid,
        c.token_count = e.count_tokens c.content := by
  intro paras
  induction paras with
  | nil =>
    intro chunks cur tok cid hacc c hc
    by_cases h : cur.isEmpty
    · simp only [ChunkingEngine.splitLongGo, h, if_true] at hc
      exact hacc c hc
    · simp only [ChunkingEngine.splitLongGo, h, if_false] at hc
      rcases List.mem_append.mp hc with hc' | hc'
      · exact hacc c hc'
      · rcases List.mem_singleton.mp hc' with rfl
        rfl
  | cons p rest ih =>
    intro chunks cur tok cid hacc c hc
    simp only [ChunkingEngine.splitLongGo] at hc
    split_ifs at hc with h1 h2 h3 h4 h5
    · refine ih _ _ _ _ ?_ c hc
      intro c' hc'
      rcases List.mem_append.mp hc' with hc'' | hc''
      · exact hacc c' hc''
      · exact splitLargeParaGo_token_count e sec _ _ _ _ c' hc''
    · refine ih _ _ _ _ ?_ c hc
      intro c' hc'
      rcases List.mem_append.mp hc' with hc'' | hc''
      · rcases List.mem_append.mp hc'' with hc3 | hc3
        · exact hacc c' hc3
        · rcases List.mem_singleton.mp hc3 with rfl
          rfl
      · exact splitLargeParaGo_token_count e sec _ _ _ _ c' hc''
    · exact ih _ _ _ _ hacc c hc
    · exact ih _ _ _ _ hacc c hc
    · refine ih _ _ _ _ ?_ c hc
      intro c' hc'
      rcases List.mem_append.mp hc' with hc'' | hc''
      · exact hacc c' hc''
      · rcases List.mem_singleton.mp hc'' with rfl
        rfl
    · refine ih _ _ _ _ ?_ c hc
      intro c' hc'
      rcases List.mem_append.mp hc' with hc'' | hc''
      · exact hacc c' hc''
      · rcases List.mem_singleton.mp hc'' with rfl
        rfl
    · exact ih _ _ _ _ hacc c hc

/-- Every chunk emitted by the smart strategy records the recomputed token
count of its content. -/
theorem smartGo_token_count (e : ChunkingEngine) :
    ∀ (sections : List DocumentSection) (cid : Nat) (c : TextChunk),
      c ∈ e.smartGo sections cid → c.token_count = e.count_tokens c.content := by
  intro sections
  induction sections with
  | nil => intro cid c hc; simp [ChunkingEngine.smartGo] at hc
  | cons sec rest ih =>
    intro cid c hc
    simp only [ChunkingEngine.smartGo] at hc
    split_ifs at hc with h
    · rcases List.mem_cons.mp hc with rfl | hc'
      · rfl
      · exact ih _ c hc'
    · rcases List.mem_append.mp hc with hc' | hc'
      · exact splitLongGo_token_count e sec _ [] [] 0 cid (by simp) c hc'
      · exact ih _ c hc'

/-- Every chunk emitted by the sentence strategy records the recomputed token
count of its content. -/
theorem sentenceGo_token_count (e : ChunkingEngine) :
    ∀ (sents cur : List String) (tok cid : Nat) (c : TextChunk),
      c ∈ e.sentenceGo sents cur tok cid →
      c.token_count = e.count_tokens c.content := by
  intro sents
  induction sents with
  | nil =>
    intro cur tok cid c hc
    by_cases h : cur.isEmpty
    · simp [ChunkingEngine.sentenceGo, h] at hc
    · simp [ChunkingEngine.sentenceGo, h] at hc
      subst hc; rfl
  | cons s rest ih =>
    intro cur tok cid c hc
    simp only [ChunkingEngine.sentenceGo] at hc
    split_ifs at hc with h1
    · rcases List.mem_cons.mp hc with rfl | hc'
      · rfl
      · exact ih _ _ _ _ hc'
    · exact ih _ _ _ _ hc

/-- Every chunk of the fixed strategy consists of a decoded token window
whose raw length is the recorded token count. -/
theorem fixedGo_window (e : ChunkingEngine) (tokens : List Nat) :
    ∀ (fuel : Nat) (i : Int) (cid : Nat) (chunks : List TextChunk),
      e.fixedGo tokens fuel i cid = some chunks →
      ∀ c ∈ chunks, ∃ w : List Nat,
        c.content = e.tc.decode w ∧ c.token_count = w.length := by
  intro fuel
  induction fuel with
  | zero =>
    intro i cid chunks h
    simp only [ChunkingEngine.fixedGo] at h
    split_ifs at h
    simp only [Option.some.injEq] at h
    subst h
    simp
  | succ fuel ih =>
    intro i cid chunks h
    simp only [ChunkingEngine.fixedGo] at h
    split_ifs at h with hguard
    · rcases hrec : e.fixedGo tokens fuel
          (i + ((e.chunk_size : Int) - (e.chunk_overlap : Int))) (cid + 1) with _ | cs
      · rw [hrec] at h; exact absurd h (by simp)
      · rw [hrec] at h
        simp only [Option.map_some', Option.some.injEq] at h
        subst h
        intro c hc
        rcases List.mem_cons.mp hc with rfl | hc'
        · exact ⟨pySlice tokens i (i + e.chunk_size), rfl, rfl⟩
        · exact ih _ _ _ hrec c hc'
    · simp only [Option.some.injEq] at h
      subst h
      simp

/-- C1 (amended): under the smart, sentence and section strategies every
returned chunk satisfies `token_count = count_tokens(content)` exactly; under
the fixed strategy the recorded `token_count` is the length of the sliced
token window whose decode is the content — which coincides with
`count_tokens(content)` exactly when re-encoding that decoded window preserves
its length. -/
theorem C1_token_count_consistency (e : ChunkingEngine) :
    (∀ (document : ProcessedDocument) (c : TextChunk),
      c ∈ e.smart_chunk document → c.token_count = e.count_tokens c.content) ∧
    (∀ (text : String) (c : TextChunk),
      c ∈ e.sentence_chunk text → c.token_count = e.count_tokens c.content) ∧
    (∀ (document : ProcessedDocument) (c : TextChunk),
      c ∈ e.section_chunk document → c.token_count = e.count_tokens c.content) ∧
    (∀ (fuel : Nat) (text : String) (chunks : List TextChunk),
      e.fixed_chunk fuel text = some chunks →
      ∀ c ∈ chunks, ∃ w : List Nat,
        c.content = e.tc.decode w ∧ c.token_count = w.length ∧
        ((e.tc.encode (e.tc.decode w)).length = w.length →
          c.token_count = e.count_tokens c.content)) := by
  refine ⟨?_, ?_, ?_, ?_⟩
  · intro document c hc
    exact smartGo_token_count e document.sections 0 c hc
  · intro text c hc
    exact sentenceGo_token_count e _ [] 0 0 c hc
  · intro document c hc
    simp only [ChunkingEngine.section_chunk, List.mem_map] at hc
    obtain ⟨p, _, rfl⟩ := hc
    rfl
  · intro fuel text chunks hok c hc
    obtain ⟨w, hw1, hw2⟩ := fixedGo_window e _ fuel 0 0 chunks hok c hc
    refine ⟨w, hw1, hw2, fun hlen => ?_⟩
    rw [hw2, hw1]
    unfold ChunkingEngine.count_tokens TokenCounter.count_tokens
    exact hlen.symm

/-- Witness for C1 at a concrete input (smart strategy). -/
theorem C1_token_count_consistency_witness :
    ({ content := "ab", chunk_id := 0, section_title := some "A",
       section_level := some 1, token_count := 2,
       metadata := [("strategy", MetaVal.str "section_preserved"),
                    ("is_complete_section", MetaVal.bool true)] } :
      TextChunk).token_count = engChar20.count_tokens "ab" :=
  (C1_token_count_consistency engChar20).1 ⟨"", [⟨"A", "ab", 1⟩]⟩ _ (by decide)

/-- Counterexample to C1 as stated: over a lawful token counter that merges
`"ab"` into one token, the fixed strategy (size 2, overlap 1) on the document
`"aab"` returns a middle chunk whose content is `"ab"` with recorded
`token_count = 2`, while `count_tokens("ab") = 1`. -/
theorem C1_token_count_counterexample :
    engMerge21.chunk_document 10 ⟨"aab", []⟩ "fixed"
      = some (Except.ok
        [{ content := "aa", chunk_id := 0, token_count := 2,
           metadata := [("strategy", MetaVal.str "fixed")] },
         { content := "ab", chunk_id := 1, token_count := 2,
           metadata := [("strategy", MetaVal.str "fixed")] },
         { content := "b", chunk_id := 2, token_count := 1,
           metadata := [("strategy", MetaVal.str "fixed")] }]) ∧
    engMerge21.count_tokens "ab" = 1 ∧ (2 : Nat) ≠ 1 := by
  refine ⟨by rfl, by decide, by decide⟩

/-! ### Budget accounting (no-overlap case) -/

/-- With no overlap, every chunk emitted by the sentence-splitting loop of
`_split_large_paragraph` is a space-join of a non-empty selection of the
actual sentence pieces, whose token counts sum within budget, or a single
oversized sentence piece. -/
theorem splitLargeParaGo_budget (e : ChunkingEngine) (sec : DocumentSection)
    (hov : e.chunk_overlap = 0) (pieces : List String) :
    ∀ (sents cur : List String) (tok cid : Nat),
      (∀ s ∈ sents, s ∈ pieces) →
      (∀ u ∈ cur, u ∈ pieces) →
      tok = sumTokens e cur →
      (sumTokens e cur ≤ e.chunk_size ∨ ∃ u, cur = [u]) →
      ∀ c ∈ e.splitLargeParaGo sec sents cur tok cid,
        budgetUnits e " " pieces c := by
  intro sents
  induction sents with
  | nil =>
    intro cur tok cid _ hcur htok hinv c hc
    by_cases h : cur.isEmpty
    · simp [ChunkingEngine.splitLargeParaGo, h] at hc
    · simp [ChunkingEngine.splitLargeParaGo, h] at hc
      subst hc
      refine ⟨cur, fun hh => h (by simp [hh]), hcur, rfl, ?_⟩
      by_cases hb : sumTokens e cur ≤ e.chunk_size
      · exact Or.inl hb
      · rcases hinv with hinv | ⟨u, rfl⟩
        · exact absurd hinv hb
        · refine Or.inr ⟨u, rfl, ?_⟩
          simp [sumTokens] at hb
          omega
  | cons s rest ih =>
    intro cur tok cid hs hcur htok hinv c hc
    have hs0 : s ∈ pieces := hs s (List.mem_cons_self s rest)
    have hs' : ∀ x ∈ rest, x ∈ pieces :=
      fun x hx => hs x (List.mem_cons_of_mem s hx)
    simp only [ChunkingEngine.splitLargeParaGo] at hc
    split_ifs at hc with h1 h2
    · exact absurd h2 (by omega)
    · rcases List.mem_cons.mp hc with rfl | hc'
      · have hne : cur ≠ [] := by
          intro hh
          subst hh
          simp at h1
        refine ⟨cur, hne, hcur, rfl, ?_⟩
        by_cases hb : sumTokens e cur ≤ e.chunk_size
        · exact Or.inl hb
        · rcases hinv with hinv | ⟨u, rfl⟩
          · exact absurd hinv hb
          · refine Or.inr ⟨u, rfl, ?_⟩
            simp [sumTokens] at hb
            omega
      · exact ih [s] _ _ hs' (by simpa using hs0) (by simp [sumTokens])
          (Or.inr ⟨s, rfl⟩) c hc'
    · refine ih (cur ++ [s]) _ _ hs' ?_ ?_ ?_ c hc
      · intro u hu
        rcases List.mem_append.mp hu with hu' | hu'
        · exact hcur u hu'
        · rcases List.mem_singleton.mp hu' with rfl
          exact hs0
      · subst htok; simp [sumTokens]
      · by_cases hcur2 : cur.isEmpty
        · exact Or.inr ⟨s, by rw [List.isEmpty_iff.mp hcur2]; rfl⟩
        · left
          have hc2 : cur.isEmpty = false := by
            revert hcur2; cases cur.isEmpty <;> simp
          have hle : ¬ e.chunk_size < tok + e.count_tokens s := by
            intro hlt
            exact h1 (by simp [hlt, hc2])
          subst htok
          simp only [sumTokens, List.map_append, List.map_cons, List.map_nil,
            List.sum_append, List.sum_cons, List.sum_nil] at *
          omega

/-- The sentence strategy's loop (which carries no overlap at all): every
chunk is a space-join of a non-empty selection of the actual sentence pieces,
whose token counts sum within budget, or a single oversized sentence piece. -/
theorem sentenceGo_budget (e : ChunkingEngine) (pieces : List String) :
    ∀ (sents cur : List String) (tok cid : Nat),
      (∀ s ∈ sents, s ∈ pieces) →
      (∀ u ∈ cur, u ∈ pieces) →
      tok = sumTokens e cur →
      (sumTokens e cur ≤ e.chunk_size ∨ ∃ u, cur = [u]) →
      ∀ c ∈ e.sentenceGo sents cur tok cid, budgetUnits e " " pieces c := by
  intro sents
  induction sents with
  | nil =>
    intro cur tok cid _ hcur htok hinv c hc
    by_cases h : cur.isEmpty
    · simp [ChunkingEngine.sentenceGo, h] at hc
    · simp [ChunkingEngine.sentenceGo, h] at hc
      subst hc
      refine ⟨cur, fun hh => h (by simp [hh]), hcur, rfl, ?_⟩
      by_cases hb : sumTokens e cur ≤ e.chunk_size
      · exact Or.inl hb
      · rcases hinv with hinv | ⟨u, rfl⟩
        · exact absurd hinv hb
        · refine Or.inr ⟨u, rfl, ?_⟩
          simp [sumTokens] at hb
          omega
  | cons s rest ih =>
    intro cur tok cid hs hcur htok hinv c hc
    have hs0 : s ∈ pieces := hs s (List.mem_cons_self s rest)
    have hs' : ∀ x ∈ rest, x ∈ pieces :=
      fun x hx => hs x (List.mem_cons_of_mem s hx)
    simp only [ChunkingEngine.sentenceGo] at hc
    split_ifs at hc with h1
    · rcases List.mem_cons.mp hc with rfl | hc'
      · have hne : cur ≠ [] := by
          intro hh
          subst hh
          simp at h1
        refine ⟨cur, hne, hcur, rfl, ?_⟩
        by_cases hb : sumTokens e cur ≤ e.chunk_size
        · exact Or.inl hb
        · rcases hinv with hinv | ⟨u, rfl⟩
          · exact absurd hinv hb
          · refine Or.inr ⟨u, rfl, ?_⟩
            simp [sumTokens] at hb
            omega
      · exact ih [s] _ _ hs' (by simpa using hs0) (by simp [sumTokens])
          (Or.inr ⟨s, rfl⟩) c hc'
    · refine ih (cur ++ [s]) _ _ hs' ?_ ?_ ?_ c hc
      · intro u hu
        rcases List.mem_append.mp hu with hu' | hu'
        · exact hcur u hu'
        · rcases List.mem_singleton.mp hu' with rfl
          exact hs0
      · subst htok; simp [sumTokens]
      · by_cases hcur2 : cur.isEmpty
        · exact Or.inr ⟨s, by rw [List.isEmpty_iff.mp hcur2]; rfl⟩
        · left
          have hc2 : cur.isEmpty = false := by
            revert hcur2; cases cur.isEmpty <;> simp
          have hle : ¬ e.chunk_size < tok + e.count_tokens s := by
            intro hlt
            exact h1 (by simp [hlt, hc2])
          subst htok
          simp only [sumTokens, List.map_append, List.map_cons, List.map_nil,
            List.sum_append, List.sum_cons, List.sum_nil] at *
          omega

/-- With no overlap, every chunk added by the paragraph loop of
`_split_long_section` is either a blank-line join of actual paragraph pieces
with token counts summing within budget, or comes from sentence-splitting one
oversized paragraph piece (a space-join of its actual sentence pieces within
budget, or a single oversized sentence). -/
theorem splitLongGo_budget (e : ChunkingEngine) (sec : DocumentSection)
    (hov : e.chunk_overlap = 0) (paraPieces : List String) :
    ∀ (paras : List String) (chunks : List TextChunk) (cur : List String)
      (tok cid : Nat),
      (∀ p ∈ paras, p ∈ paraPieces) →
      (∀ u ∈ cur, u ∈ paraPieces) →
      (∀ c ∈ chunks, budgetUnits e "\n\n" paraPieces c ∨
        ∃ p ∈ paraPieces, budgetUnits e " " (split_into_sentences p) c) →
      tok = sumTokens e cur →
      sumTokens e cur ≤ e.chunk_size →
      ∀ c ∈ e.splitLongGo sec paras chunks cur tok cid,
        budgetUnits e "\n\n" paraPieces c ∨
          ∃ p ∈ paraPieces, budgetUnits e " " (split_into_sentences p) c := by
  intro paras
  induction paras with
  | nil =>
    intro chunks cur tok cid _ hcur hacc htok hle c hc
    by_cases h : cur.isEmpty
    · simp only [ChunkingEngine.splitLongGo, h, if_true] at hc
      exact hacc c hc
    · simp only [ChunkingEngine.splitLongGo, h, if_false] at hc
      rcases List.mem_append.mp hc with hc' | hc'
      · exact hacc c hc'
      · rcases List.mem_singleton.mp hc' with rfl
        exact Or.inl ⟨cur, fun hh => h (by simp [hh]), hcur, rfl, Or.inl hle⟩
  | cons p rest ih =>
    intro chunks cur tok cid hp hcur hacc htok hle c hc
    have hp0 : p ∈ paraPieces := hp p (List.mem_cons_self p rest)
    have hp' : ∀ x ∈ rest, x ∈ paraPieces :=
      fun x hx => hp x (List.mem_cons_of_mem p hx)
    simp only [ChunkingEngine.splitLongGo] at hc
    split_ifs at hc with h1 h2 h3 h4 h5 h6
    · refine ih _ [] _ _ hp' (by simp) ?_ (by simp [sumTokens])
        (by simp [sumTokens]) c hc
      intro c' hc'
      rcases List.mem_append.mp hc' with hc'' | hc''
      · exact hacc c' hc''
      · refine Or.inr ⟨p, hp0, ?_⟩
        exact splitLargeParaGo_budget e sec hov (split_into_sentences p)
          _ [] _ _ (fun s hs => hs) (by simp) (by simp [sumTokens])
          (Or.inl (by simp [sumTokens])) c' hc''
    · refine ih _ [] _ _ hp' (by simp) ?_ (by simp [sumTokens])
        (by simp [sumTokens]) c hc
      intro c' hc'
      rcases List.mem_append.mp hc' with hc'' | hc''
      · rcases List.mem_append.mp hc'' with hc3 | hc3
        · exact hacc c' hc3
        · rcases List.mem_singleton.mp hc3 with rfl
          exact Or.inl ⟨cur, fun hh => h2 (by simp [hh]), hcur, rfl, Or.inl hle⟩
      · refine Or.inr ⟨p, hp0, ?_⟩
        exact splitLargeParaGo_budget e sec hov (split_into_sentences p)
          _ [] _ _ (fun s hs => hs) (by simp) (by simp [sumTokens])
          (Or.inl (by simp [sumTokens])) c' hc''
    · exact absurd h5.2 (by omega)
    · refine ih _ _ _ _ hp' (by simpa using hp0) hacc (by simp [sumTokens]) ?_ c hc
      simp only [sumTokens, List.map_cons, List.map_nil, List.sum_cons,
        List.sum_nil]
      omega
    · exact absurd h6.2 (by omega)
    · refine ih _ _ _ _ hp' (by simpa using hp0) ?_ (by simp [sumTokens]) ?_ c hc
      · intro c' hc'
        rcases List.mem_append.mp hc' with hc'' | hc''
        · exact hacc c' hc''
        · rcases List.mem_singleton.mp hc'' with rfl
          exact Or.inl ⟨cur, fun hh => h4 (by simp [hh]), hcur, rfl, Or.inl hle⟩
      · simp only [sumTokens, List.map_cons, List.map_nil, List.sum_cons,
          List.sum_nil]
        omega
    · refine ih _ (cur ++ [p]) _ _ hp' ?_ hacc ?_ ?_ c hc
      · intro u hu
        rcases List.mem_append.mp hu with hu' | hu'
        · exact hcur u hu'
        · rcases List.mem_singleton.mp hu' with rfl
          exact hp0
      · subst htok; simp [sumTokens]
      · subst htok
        simp only [sumTokens, List.map_append, List.map_cons, List.map_nil,
          List.sum_append, List.sum_cons, List.sum_nil] at *
        omega

/-- With no overlap, every chunk of the smart strategy either respects the
recorded budget outright (preserved sections), or joins actual paragraph
pieces of one of the processed sections within the summed budget, or comes
from sentence-splitting one oversized paragraph of such a section. -/
theorem smartGo_budget (e : ChunkingEngine) (hov : e.chunk_overlap = 0) :
    ∀ (sections : List DocumentSection) (cid : Nat) (c : TextChunk),
      c ∈ e.smartGo sections cid →
      c.token_count ≤ e.chunk_size ∨
      ∃ sec ∈ sections,
        budgetUnits e "\n\n" (split_into_paragraphs sec.content) c ∨
        ∃ p ∈ split_into_paragraphs sec.content,
          budgetUnits e " " (split_into_sentences p) c := by
  intro sections
  induction sections with
  | nil => intro cid c hc; simp [ChunkingEngine.smartGo] at hc
  | cons sec rest ih =>
    intro cid c hc
    simp only [ChunkingEngine.smartGo] at hc
    split_ifs at hc with h
    · rcases List.mem_cons.mp hc with rfl | hc'
      · exact Or.inl h
      · rcases ih _ c hc' with hb | ⟨sec', hsec', hb⟩
        · exact Or.inl hb
        · exact Or.inr ⟨sec', List.mem_cons_of_mem sec hsec', hb⟩
    · rcases List.mem_append.mp hc with hc' | hc'
      · refine Or.inr ⟨sec, List.mem_cons_self sec rest, ?_⟩
        exact splitLongGo_budget e sec hov (split_into_paragraphs sec.content)
          _ [] [] 0 cid (fun q hq => hq) (by simp) (by simp)
          (by simp [sumTokens]) (by simp [sumTokens]) c hc'
      · rcases ih _ c hc' with hb | ⟨sec', hsec', hb⟩
        · exact Or.inl hb
        · exact Or.inr ⟨sec', List.mem_cons_of_mem sec hsec', hb⟩

/-- A Python token-window slice `tokens[i : i + k]` taken at a non-negative
start index holds at most `k` tokens. -/
theorem pySlice_length_le (l : List Nat) (i : Int) (k : Nat) (hi : 0 ≤ i) :
    (pySlice l i (i + (k : Int))).length ≤ k := by
  simp only [pySlice]
  rw [if_neg (by omega), if_neg (by omega)]
  simp only [List.length_take, List.length_drop]
  have h1 : min (i + (k : Int)) (l.length : Int) - min i (l.length : Int)
      ≤ (k : Int) := by
    rcases le_total i (l.length : Int) with h | h <;>
      rcases le_total (i + (k : Int)) (l.length : Int) with h' | h' <;>
      simp [min_def, h, h'] <;> omega
  omega

/-- With no overlap the fixed-window loop keeps its index non-negative, so
every emitted chunk's recorded token count is at most `chunk_size`. -/
theorem fixedGo_budget (e : ChunkingEngine) (tokens : List Nat)
    (hov : e.chunk_overlap = 0) :
    ∀ (fuel : Nat) (i : Int) (cid : Nat) (chunks : List TextChunk), 0 ≤ i →
      e.fixedGo tokens fuel i cid = some chunks →
      ∀ c ∈ chunks, c.token_count ≤ e.chunk_size := by
  intro fuel
  induction fuel with
  | zero =>
    intro i cid chunks hi h
    simp only [ChunkingEngine.fixedGo] at h
    split_ifs at h
    simp only [Option.some.injEq] at h
    subst h
    simp
  | succ fuel ih =>
    intro i cid chunks hi h
    simp only [ChunkingEngine.fixedGo] at h
    split_ifs at h with hguard
    · rcases hrec : e.fixedGo tokens fuel
          (i + ((e.chunk_size : Int) - (e.chunk_overlap : Int))) (cid + 1) with _ | cs
      · rw [hrec] at h; exact absurd h (by simp)
      · rw [hrec] at h
        simp only [Option.map_some', Option.some.injEq] at h
        subst h
        intro c hc
        rcases List.mem_cons.mp hc with rfl | hc'
        · exact pySlice_length_le tokens i e.chunk_size hi
        · exact ih _ _ _ (by omega) hrec c hc'
    · simp only [Option.some.injEq] at h
      subst h
      simp

/-- C4 (amended): with `chunk_overlap = 0`, every chunk of the fixed strategy
has `token_count ≤ chunk_size`; every chunk of the sentence strategy is a
space-join of a non-empty selection of the actual sentence pieces of the text,
either with the pieces' token counts summing to at most `chunk_size` or a
single sentence piece that alone exceeds it; and every chunk of the smart
strategy either respects the recorded budget outright, or is such a join of
actual paragraph pieces (resp. sentence pieces of one oversized paragraph) of
one of the document's sections.  (The recomputed `token_count` of a joined
chunk may exceed `chunk_size` because the join separators add tokens.) -/
theorem C4_budget_respect (e : ChunkingEngine) (hov : e.chunk_overlap = 0) :
    (∀ (document : ProcessedDocument) (c : TextChunk),
      c ∈ e.smart_chunk document →
      c.token_count ≤ e.chunk_size ∨
      ∃ sec ∈ document.sections,
        budgetUnits e "\n\n" (split_into_paragraphs sec.content) c ∨
        ∃ p ∈ split_into_paragraphs sec.content,
          budgetUnits e " " (split_into_sentences p) c) ∧
    (∀ (text : String) (c : TextChunk),
      c ∈ e.sentence_chunk text →
      budgetUnits e " " (split_into_sentences text) c) ∧
    (∀ (fuel : Nat) (text : String) (chunks : List TextChunk),
      e.fixed_chunk fuel text = some chunks →
      ∀ c ∈ chunks, c.token_count ≤ e.chunk_size) := by
  refine ⟨?_, ?_, ?_⟩
  · intro document c hc
    exact smartGo_budget e hov document.sections 0 c hc
  · intro text c hc
    exact sentenceGo_budget e (split_into_sentences text) _ [] 0 0
      (fun s hs => hs) (by simp) (by simp [sumTokens])
      (Or.inl (by simp [sumTokens])) c hc
  · intro fuel text chunks hok c hc
    exact fixedGo_budget e _ hov fuel 0 0 chunks le_rfl hok c hc

/-- Witness for C4 at concrete inputs: an atomic oversized sentence chunk of
the sentence strategy, and a fixed-strategy chunk within the recorded
budget. -/
theorem C4_budget_respect_witness :
    budgetUnits engChar20 " " (split_into_sentences "Hi. Bye.")
      { content := "Hi.", chunk_id := 0, token_count := 3,
        metadata := [("strategy", MetaVal.str "sentence")] } ∧
    ({ content := "ab", chunk_id := 0, token_count := 2,
       metadata := [("strategy", MetaVal.str "fixed")] } :
      TextChunk).token_count ≤ engChar20.chunk_size :=
  ⟨(C4_budget_respect engChar20 rfl).2.1 "Hi. Bye."
      { content := "Hi.", chunk_id := 0, token_count := 3,
        metadata := [("strategy", MetaVal.str "sentence")] } (by decide),
   (C4_budget_respect engChar20 rfl).2.2 10 "abcde"
    [{ content := "ab", chunk_id := 0, token_count := 2,
       metadata := [("strategy", MetaVal.str "fixed")] },
     { content := "cd", chunk_id := 1, token_count := 2,
       metadata := [("strategy", MetaVal.str "fixed")] },
     { content := "e", chunk_id := 2, token_count := 1,
       metadata := [("strategy", MetaVal.str "fixed")] }]
    (by rfl) _ (by simp)⟩

/-- Counterexample to C4 as stated: with size 2 and no overlap, the smart
strategy on a section holding the two one-token paragraphs `"a"` and `"b"`
emits a single joined chunk whose recorded `token_count` is 4 > 2, even though
neither constituent paragraph exceeds the budget (the `"\n\n"` separator
contributes the extra tokens). -/
theorem C4_budget_respect_counterexample :
    engChar20.chunk_document 5 ⟨"", [⟨"T", "a\n\nb", 1⟩]⟩ "smart"
      = some (Except.ok
        [{ content := "a\n\nb", chunk_id := 0, section_title := some "T",
           section_level := some 1, token_count := 4,
           metadata := [("strategy", MetaVal.str "paragraph_based")] }]) ∧
    engChar20.chunk_size < 4 ∧
    split_into_paragraphs "a\n\nb" = ["a", "b"] ∧
    engChar20.count_tokens "a" ≤ engChar20.chunk_size ∧
    engChar20.count_tokens "b" ≤ engChar20.chunk_size :=
  ⟨by rfl, by decide, by rfl, by decide, by decide⟩

/-! ### Non-empty chunk contents -/

/-- A non-empty string has positive length. -/
theorem length_pos_of_ne_empty (s : String) (h : s ≠ "") : 0 < s.length := by
  cases s with
  | mk data =>
    cases data with
    | nil => exact absurd rfl h
    | cons c cs => simp [String.length]

/-- A string of positive length is non-empty. -/
theorem ne_empty_of_length_pos (s : String) (h : 0 < s.length) : s ≠ "" := by
  intro h'
  subst h'
  simp at h

/-- The join accumulator never shrinks below its seed. -/
theorem intercalate_go_length (sep : String) :
    ∀ (l : List String) (acc : String),
      acc.length ≤ (String.intercalate.go acc sep l).length := by
  intro l
  induction l with
  | nil => intro acc; exact le_rfl
  | cons b bs ih =>
    intro acc
    calc acc.length ≤ (acc ++ sep ++ b).length := by
          rw [String.length_append, String.length_append]; omega
      _ ≤ _ := ih (acc ++ sep ++ b)

/-- The join is at least as long as any member being joined. -/
theorem intercalate_go_mem_length (sep : String) :
    ∀ (l : List String) (acc x : String), x ∈ l →
      x.length ≤ (String.intercalate.go acc sep l).length := by
  intro l
  induction l with
  | nil => intro acc x hx; simp at hx
  | cons b bs ih =>
    intro acc x hx
    rcases List.mem_cons.mp hx with rfl | hx'
    · calc x.length ≤ (acc ++ sep ++ x).length := by
            rw [String.length_append, String.length_append]; omega
        _ ≤ _ := intercalate_go_length sep bs (acc ++ sep ++ x)
    · exact ih (acc ++ sep ++ b) x hx'

/-- Joining a list that contains a non-empty member yields non-empty text. -/
theorem intercalate_ne_empty (sep : String) (us : List String) (x : String)
    (hx : x ∈ us) (hne : x ≠ "") : String.intercalate sep us ≠ "" := by
  cases us with
  | nil => simp at hx
  | cons a l =>
    refine ne_empty_of_length_pos _ ?_
    rcases List.mem_cons.mp hx with rfl | hx'
    · exact lt_of_lt_of_le (length_pos_of_ne_empty x hne)
        (intercalate_go_length sep l x)
    · exact lt_of_lt_of_le (length_pos_of_ne_empty x hne)
        (intercalate_go_mem_length sep l a x hx')

/-- Paragraph pieces are stripped and non-empty. -/
theorem mem_split_into_paragraphs_ne_empty (text : String) :
    ∀ p ∈ split_into_paragraphs text, p ≠ "" := by
  intro p hp
  have := List.of_mem_filter hp
  simpa using this

/-- Sentence pieces are stripped and non-empty. -/
theorem mem_split_into_sentences_ne_empty (text : String) :
    ∀ s ∈ split_into_sentences text, s ≠ "" := by
  intro s hs
  have := List.of_mem_filter hs
  simpa using this

/-- Every chunk emitted by the sentence-splitting loop of
`_split_large_paragraph` has non-empty content: the running buffer always
retains at least one genuine sentence. -/
theorem splitLargeParaGo_content_ne (e : ChunkingEngine) (sec : DocumentSection) :
    ∀ (sents cur : List String) (tok cid : Nat),
      (∀ s ∈ sents, s ≠ "") →
      (cur = [] ∨ ∃ x ∈ cur, x ≠ "") →
      ∀ c ∈ e.splitLargeParaGo sec sents cur tok cid, c.content ≠ "" := by
  intro sents
  induction sents with
  | nil =>
    intro cur tok cid _ hinv c hc
    by_cases h : cur.isEmpty
    · simp [ChunkingEngine.splitLargeParaGo, h] at hc
    · simp [ChunkingEngine.splitLargeParaGo, h] at hc
      subst hc
      rcases hinv with rfl | ⟨x, hx, hxne⟩
      · simp at h
      · exact intercalate_ne_empty " " cur x hx hxne
  | cons s rest ih =>
    intro cur tok cid hs hinv c hc
    have hs0 : s ≠ "" := hs s (List.mem_cons_self s rest)
    have hs' : ∀ x ∈ rest, x ≠ "" := fun x hx => hs x (List.mem_cons_of_mem s hx)
    simp only [ChunkingEngine.splitLargeParaGo] at hc
    split_ifs at hc with h1 h2
    · rcases List.mem_cons.mp hc with rfl | hc'
      · rcases hinv with rfl | ⟨x, hx, hxne⟩
        · simp at h1
        · exact intercalate_ne_empty " " cur x hx hxne
      · exact ih _ _ _ hs' (Or.inr ⟨s, by simp, hs0⟩) c hc'
    · rcases List.mem_cons.mp hc with rfl | hc'
      · rcases hinv with rfl | ⟨x, hx, hxne⟩
        · simp at h1
        · exact intercalate_ne_empty " " cur x hx hxne
      · exact ih _ _ _ hs' (Or.inr ⟨s, by simp, hs0⟩) c hc'
    · exact ih _ _ _ hs' (Or.inr ⟨s, by simp, hs0⟩) c hc

/-- Every chunk added by the paragraph loop of `_split_long_section` has
non-empty content. -/
theorem splitLongGo_content_ne (e : ChunkingEngine) (sec : DocumentSection) :
    ∀ (paras : List String) (chunks : List TextChunk) (cur : List String)
      (tok cid : Nat),
      (∀ p ∈ paras, p ≠ "") →
      (∀ c ∈ chunks, c.content ≠ "") →
      (cur = [] ∨ ∃ x ∈ cur, x ≠ "") →
      ∀ c ∈ e.splitLongGo sec paras chunks cur tok cid, c.content ≠ "" := by
  intro paras
  induction paras with
  | nil =>
    intro chunks cur tok cid _ hacc hinv c hc
    by_cases h : cur.isEmpty
    · simp only [ChunkingEngine.splitLongGo, h, if_true] at hc
      exact hacc c hc
    · simp only [ChunkingEngine.splitLongGo, h, if_false] at hc
      rcases List.mem_append.mp hc with hc' | hc'
      · exact hacc c hc'
      · rcases List.mem_singleton.mp hc' with rfl
        rcases hinv with rfl | ⟨x, hx, hxne⟩
        · simp at h
        · exact intercalate_ne_empty "\n\n" cur x hx hxne
  | cons p rest ih =>
    intro chunks cur tok cid hp hacc hinv c hc
    have hp0 : p ≠ "" := hp p (List.mem_cons_self p rest)
    have hp' : ∀ x ∈ rest, x ≠ "" := fun x hx => hp x (List.mem_cons_of_mem p hx)
    have hflush : ∀ cid', (e.create_chunk_from_paragraphs cur cid'
        sec.title sec.level).content ≠ "" ∨ cur = [] := by
      intro cid'
      rcases hinv with rfl | ⟨x, hx, hxne⟩
      · exact Or.inr rfl
      · exact Or.inl (intercalate_ne_empty "\n\n" cur x hx hxne)
    simp only [ChunkingEngine.splitLongGo] at hc
    split_ifs at hc with h1 h2 h3 h4 h5 h6
    · refine ih _ [] _ _ hp' ?_ (Or.inl rfl) c hc
      intro c' hc'
      rcases List.mem_append.mp hc' with hc'' | hc''
      · exact hacc c' hc''
      · exact splitLargeParaGo_content_ne e sec _ [] _ _
          (mem_split_into_sentences_ne_empty p) (Or.inl rfl) c' hc''
    · refine ih _ [] _ _ hp' ?_ (Or.inl rfl) c hc
      intro c' hc'
      rcases List.mem_append.mp hc' with hc'' | hc''
      · rcases List.mem_append.mp hc'' with hc3 | hc3
        · exact hacc c' hc3
        · rcases List.mem_singleton.mp hc3 with rfl
          rcases hflush cid with hne | rfl
          · exact hne
          · simp at h2
      · exact splitLargeParaGo_content_ne e sec _ [] _ _
          (mem_split_into_sentences_ne_empty p) (Or.inl rfl) c' hc''
    · exact ih _ _ _ _ hp' hacc (Or.inr ⟨p, by simp, hp0⟩) c hc
    · exact ih _ _ _ _ hp' hacc (Or.inr ⟨p, by simp, hp0⟩) c hc
    · refine ih _ _ _ _ hp' ?_ (Or.inr ⟨p, by simp, hp0⟩) c hc
      intro c' hc'
      rcases List.mem_append.mp hc' with hc'' | hc''
      · exact hacc c' hc''
      · rcases List.mem_singleton.mp hc'' with rfl
        rcases hflush cid with hne | rfl
        · exact hne
        · simp at h4
    · refine ih _ _ _ _ hp' ?_ (Or.inr ⟨p, by simp, hp0⟩) c hc
      intro c' hc'
      rcases List.mem_append.mp hc' with hc'' | hc''
      · exact hacc c' hc''
      · rcases List.mem_singleton.mp hc'' with rfl
        rcases hflush cid with hne | rfl
        · exact hne
        · simp at h4
    · exact ih _ _ _ _ hp' hacc (Or.inr ⟨p, by simp, hp0⟩) c hc

/-- Every chunk the smart strategy emits for sections with non-empty content
has non-empty content. -/
theorem smartGo_content_ne (e : ChunkingEngine) :
    ∀ (sections : List DocumentSection) (cid : Nat),
      (∀ s ∈ sections, s.content ≠ "") →
      ∀ c ∈ e.smartGo sections cid, c.content ≠ "" := by
  intro sections
  induction sections with
  | nil => intro cid _ c hc; simp [ChunkingEngine.smartGo] at hc
  | cons sec rest ih =>
    intro cid hs c hc
    have hs0 : sec.content ≠ "" := hs sec (List.mem_cons_self sec rest)
    have hs' : ∀ x ∈ rest, x.content ≠ "" :=
      fun x hx => hs x (List.mem_cons_of_mem sec hx)
    simp only [ChunkingEngine.smartGo] at hc
    split_ifs at hc with h
    · rcases List.mem_cons.mp hc with rfl | hc'
      · exact hs0
      · exact ih _ hs' c hc'
    · rcases List.mem_append.mp hc with hc' | hc'
      · exact splitLongGo_content_ne e sec _ [] [] 0 cid
          (mem_split_into_paragraphs_ne_empty sec.content) (by simp)
          (Or.inl rfl) c hc'
      · exact ih _ hs' c hc'

/-- Every chunk the sentence strategy emits has non-empty content. -/
theorem sentenceGo_content_ne (e : ChunkingEngine) :
    ∀ (sents cur : List String) (tok cid : Nat),
      (∀ s ∈ sents, s ≠ "") →
      (cur = [] ∨ ∃ x ∈ cur, x ≠ "") →
      ∀ c ∈ e.sentenceGo sents cur tok cid, c.content ≠ "" := by
  intro sents
  induction sents with
  | nil =>
    intro cur tok cid _ hinv c hc
    by_cases h : cur.isEmpty
    · simp [ChunkingEngine.sentenceGo, h] at hc
    · simp [ChunkingEngine.sentenceGo, h] at hc
      subst hc
      rcases hinv with rfl | ⟨x, hx, hxne⟩
      · simp at h
      · exact intercalate_ne_empty " " cur x hx hxne
  | cons s rest ih =>
    intro cur tok cid hs hinv c hc
    have hs0 : s ≠ "" := hs s (List.mem_cons_self s rest)
    have hs' : ∀ x ∈ rest, x ≠ "" := fun x hx => hs x (List.mem_cons_of_mem s hx)
    simp only [ChunkingEngine.sentenceGo] at hc
    split_ifs at hc with h1
    · rcases List.mem_cons.mp hc with rfl | hc'
      · rcases hinv with rfl | ⟨x, hx, hxne⟩
        · simp at h1
        · exact intercalate_ne_empty " " cur x hx hxne
      · exact ih _ _ _ hs' (Or.inr ⟨s, by simp, hs0⟩) c hc'
    · exact ih _ _ _ hs' (Or.inr ⟨s, by simp, hs0⟩) c hc

/-- A Python token-window slice starting inside the list with a positive
window size is non-empty. -/
theorem pySlice_ne_nil (l : List Nat) (i : Int) (k : Nat) (h0 : 0 ≤ i)
    (hn : i < (l.length : Int)) (hk : 0 < k) :
    pySlice l i (i + (k : Int)) ≠ [] := by
  simp only [pySlice]
  rw [if_neg (by omega), if_neg (by omega)]
  refine List.ne_nil_of_length_pos ?_
  simp only [List.length_take, List.length_drop]
  have h2 : min i (l.length : Int) = i := min_eq_left (le_of_lt hn)
  have h3 : i < min (i + (k : Int)) (l.length : Int) := lt_min (by omega) hn
  rw [h2]
  omega

/-- With a valid configuration (`chunk_overlap < chunk_size`) and a decoder
that never maps a non-empty token window to empty text, every chunk of the
fixed strategy has non-empty content. -/
theorem fixedGo_content_ne (e : ChunkingEngine) (tokens : List Nat)
    (hdec : ∀ w : List Nat, w ≠ [] → e.tc.decode w ≠ "")
    (hov : e.chunk_overlap < e.chunk_size) :
    ∀ (fuel : Nat) (i : Int) (cid : Nat) (chunks : List TextChunk), 0 ≤ i →
      e.fixedGo tokens fuel i cid = some chunks →
      ∀ c ∈ chunks, c.content ≠ "" := by
  intro fuel
  induction fuel with
  | zero =>
    intro i cid chunks hi h
    simp only [ChunkingEngine.fixedGo] at h
    split_ifs at h
    simp only [Option.some.injEq] at h
    subst h
    simp
  | succ fuel ih =>
    intro i cid chunks hi h
    simp only [ChunkingEngine.fixedGo] at h
    split_ifs at h with hguard
    · rcases hrec : e.fixedGo tokens fuel
          (i + ((e.chunk_size : Int) - (e.chunk_overlap : Int))) (cid + 1) with _ | cs
      · rw [hrec] at h; exact absurd h (by simp)
      · rw [hrec] at h
        simp only [Option.map_some', Option.some.injEq] at h
        subst h
        intro c hc
        rcases List.mem_cons.mp hc with rfl | hc'
        · exact hdec _ (pySlice_ne_nil tokens i e.chunk_size hi hguard (by omega))
        · exact ih _ _ _ (by omega) hrec c hc'
    · simp only [Option.some.injEq] at h
      subst h
      simp

/-- The character-level counter never decodes a non-empty window to empty
text. -/
theorem tcChar_decode_ne : ∀ w : List Nat, w ≠ [] → tcChar.decode w ≠ "" := by
  intro w hw
  cases w with
  | nil => exact absurd rfl hw
  | cons a as =>
    show String.mk ((a :: as).map Char.ofNat) ≠ ""
    intro h
    rw [String.ext_iff] at h
    simp at h

/-- C9 (amended): with a valid configuration (`chunk_overlap < chunk_size`)
and a decoder that never maps a non-empty token window to empty text, every
chunk has non-empty content — provided, for the smart and section strategies,
that every section's content is non-empty (a section with empty content is
copied verbatim into a chunk with empty content). -/
theorem C9_nonempty_content (e : ChunkingEngine)
    (hdec : ∀ w : List Nat, w ≠ [] → e.tc.decode w ≠ "")
    (hov : e.chunk_overlap < e.chunk_size) :
    (∀ document : ProcessedDocument, (∀ s ∈ document.sections, s.content ≠ "") →
      ∀ c ∈ e.smart_chunk document, c.content ≠ "") ∧
    (∀ document : ProcessedDocument, (∀ s ∈ document.sections, s.content ≠ "") →
      ∀ c ∈ e.section_chunk document, c.content ≠ "") ∧
    (∀ (text : String) (c : TextChunk), c ∈ e.sentence_chunk text →
      c.content ≠ "") ∧
    (∀ (fuel : Nat) (text : String) (chunks : List TextChunk),
      e.fixed_chunk fuel text = some chunks → ∀ c ∈ chunks, c.content ≠ "") := by
  refine ⟨?_, ?_, ?_, ?_⟩
  · intro document hs c hc
    exact smartGo_content_ne e document.sections 0 hs c hc
  · intro document hs c hc
    simp only [ChunkingEngine.section_chunk, List.mem_map] at hc
    obtain ⟨p, hp, rfl⟩ := hc
    exact hs p.2 (List.snd_mem_of_mem_enum hp)
  · intro text c hc
    exact sentenceGo_content_ne e _ [] 0 0
      (mem_split_into_sentences_ne_empty text) (Or.inl rfl) c hc
  · intro fuel text chunks hok c hc
    exact fixedGo_content_ne e _ hdec hov fuel 0 0 chunks le_rfl hok c hc

/-- Witness for C9 at a concrete input (smart strategy over a non-empty
section). -/
theorem C9_nonempty_content_witness :
    ({ content := "x", chunk_id := 0, section_title := some "A",
       section_level := some 1, token_count := 1,
       metadata := [("strategy", MetaVal.str "section_preserved"),
                    ("is_complete_section", MetaVal.bool true)] } :
      TextChunk).content ≠ "" :=
  (C9_nonempty_content ⟨2, 1, tcChar⟩ tcChar_decode_ne (by decide)).1
    ⟨"", [⟨"A", "x", 1⟩]⟩ (by decide) _ (by decide)

/-- Counterexample to C9 as stated: a document with one section whose content
is the empty string makes the smart strategy emit a chunk whose content is the
empty string. -/
theorem C9_nonempty_content_counterexample :
    engChar20.chunk_document 5 ⟨"", [⟨"Intro", "", 1⟩]⟩ "smart"
      = some (Except.ok
        [{ content := "", chunk_id := 0, section_title := some "Intro",
           section_level := some 1, token_count := 0,
           metadata := [("strategy", MetaVal.str "section_preserved"),
                        ("is_complete_section", MetaVal.bool true)] }]) ∧
    ¬ (∀ c ∈ engChar20.smart_chunk ⟨"", [⟨"Intro", "", 1⟩]⟩, c.content ≠ "") :=
  ⟨by rfl, by
    intro h
    exact h { content := "", chunk_id := 0, section_title := some "Intro",
              section_level := some 1, token_count := 0,
              metadata := [("strategy", MetaVal.str "section_preserved"),
                           ("is_complete_section", MetaVal.bool true)] }
      (by decide) rfl⟩
